import Mathlib

/-!
Verification of the luminoth loss utilities
(`luminoth/utils/losses.py`, `luminoth/utils/safe_wrappers.py`).

Tensors are embedded as a shape (list of dimension sizes) together with a
flat, row-major data list of real numbers.  TensorFlow graph expressions
become ordinary functions over these tensors.
-/

namespace Luminoth

/-- A numeric tensor: a shape and a flat row-major data list. -/
structure Tensor (α : Type) where
  shape : List Nat
  data : List α
  deriving DecidableEq

/-- `tf.reduce_sum(x, [1])`: sum over axis 1 (keepdims false).
For shape `d0 :: d1 :: rest`, the result has shape `d0 :: rest` and
entry `(i0, r)` is the sum over `i1 < d1` of the input entry at flat
index `(i0 * d1 + i1) * rest.prod + r`. -/
def reduceSumAxis1 (t : Tensor ℝ) : Tensor ℝ :=
  match t.shape with
  | d0 :: d1 :: rest =>
    let R := rest.prod
    ⟨d0 :: rest,
      (List.range (d0 * R)).map fun k =>
        ((List.range d1).map fun i1 =>
          t.data.getD ((k / R * d1 + i1) * R + k % R) 0).sum⟩
  | _ => ⟨[], []⟩

/-- The per-element smooth L1 (Huber) loss of `losses.py`:
`abs_diff = |d|`; if `abs_diff < 1/sigma2` then `0.5 * sigma2 * abs_diff²`
else `abs_diff - 0.5 / sigma2`, with `sigma2 = sigma ** 2`. -/
noncomputable def smoothL1elem (sigma d : ℝ) : ℝ :=
  let sigma2 := sigma ^ 2
  let abs_diff := |d|
  if abs_diff < 1 / sigma2 then
    1 / 2 * sigma2 * abs_diff ^ 2
  else
    abs_diff - 1 / 2 / sigma2

/-- `smooth_l1_loss` from `losses.py`: elementwise Huber loss on
`bbox_prediction - bbox_target`, then `tf.reduce_sum(..., [1])`. -/
noncomputable def smooth_l1_loss
    (bbox_prediction bbox_target : Tensor ℝ) (sigma : ℝ) : Tensor ℝ :=
  reduceSumAxis1
    ⟨bbox_prediction.shape,
      List.zipWith (fun a b => smoothL1elem sigma (a - b))
        bbox_prediction.data bbox_target.data⟩

/-- Split a flat list into consecutive chunks of length `n`
(fuel-based structural recursion; fuel is the list length). -/
def chunksOfAux {α : Type} (n : ℕ) : ℕ → List α → List (List α)
  | 0, _ => []
  | _, [] => []
  | fuel + 1, l => l.take n :: chunksOfAux n fuel (l.drop n)

/-- Split a flat list into consecutive chunks of length `n`. -/
def chunksOf {α : Type} (n : ℕ) (l : List α) : List (List α) :=
  chunksOfAux n l.length l

/-- Modelled from the spec: reduce-sum along the innermost (last) axis,
producing one scalar per row.  Used only to compare the code's fixed
axis-1 reduction with the spec's wording. -/
def reduceSumLastAxis (t : Tensor ℝ) : Tensor ℝ :=
  match t.shape.getLast? with
  | some c => ⟨t.shape.dropLast, (chunksOf c t.data).map List.sum⟩
  | none => ⟨[], []⟩

/-- Modelled from the spec: `smooth_l1_loss` as the spec words it, with
the reduction taken along the innermost (last) axis. -/
noncomputable def smooth_l1_loss_lastAxis
    (bbox_prediction bbox_target : Tensor ℝ) (sigma : ℝ) : Tensor ℝ :=
  reduceSumLastAxis
    ⟨bbox_prediction.shape,
      List.zipWith (fun a b => smoothL1elem sigma (a - b))
        bbox_prediction.data bbox_target.data⟩

/-- `tf.one_hot(t, depth)`: 1 at index `t`, 0 elsewhere (all zeros when
`t ≥ depth`). -/
def oneHot (t depth : ℕ) : List ℝ :=
  (List.range depth).map fun j => if j = t then 1 else 0

/-- `tf.nn.softmax_cross_entropy_with_logits(labels, logits)` for one row:
`Σⱼ labelsⱼ · (log Σₖ exp logitsₖ − logitsⱼ)`. -/
noncomputable def softmaxCE (labels logits : List ℝ) : ℝ :=
  (List.zipWith
    (fun y z => y * (Real.log ((logits.map Real.exp).sum) - z))
    labels logits).sum

/-- `tf.reduce_max` over one (nonempty) row. -/
def reduceMaxRow (l : List ℝ) : ℝ :=
  match l with
  | [] => 0
  | x :: xs => xs.foldl max x

/-- `focal_loss` from `losses.py`, stage by stage as in the code:
one-hot targets, softmax cross-entropy against the scores, a per-example
weight (`weights / background_divider` for background, `weights`
otherwise), and the focal factor `(1 - max(cls_prob · one_hot))^gamma`. -/
noncomputable def focal_loss (cls_score cls_prob : List (List ℝ))
    (targets : List ℕ) (num_classes : ℕ)
    (gamma weights background_divider : ℝ) : List ℝ :=
  let targets_one_hot := targets.map fun t => oneHot t (num_classes + 1)
  let cross_entropy := List.zipWith softmaxCE targets_one_hot cls_score
  let weightsList := targets.map fun t =>
    if t = 0 then weights / background_divider else weights
  let weighted_cross_entropy :=
    List.zipWith (· * ·) cross_entropy weightsList
  let focal_weights := List.zipWith
    (fun prob oh =>
      (1 - reduceMaxRow (List.zipWith (· * ·) prob oh)) ^ gamma)
    cls_prob targets_one_hot
  List.zipWith (· * ·) focal_weights weighted_cross_entropy

/-- Modelled from the spec: plain softmax cross-entropy between the
one-hot-encoded targets and the scores, one value per example.  Used to
compare `focal_loss` at `gamma = 0`, `weights = 1`,
`background_divider = 1` against the spec's wording. -/
noncomputable def plainCrossEntropy (cls_score : List (List ℝ))
    (targets : List ℕ) (num_classes : ℕ) : List ℝ :=
  List.zipWith (fun t s => softmaxCE (oneHot t (num_classes + 1)) s)
    targets cls_score

/-- `tf.nn.softmax` on one row: `exp xᵢ / Σⱼ exp xⱼ`. -/
noncomputable def softmaxRow (l : List ℝ) : List ℝ :=
  l.map fun x => Real.exp x / (l.map Real.exp).sum

/-- `tf.nn.softmax` over the last axis of a tensor: apply `softmaxRow`
to each innermost row of the flat data; the shape is unchanged. -/
noncomputable def tfSoftmax (t : Tensor ℝ) : Tensor ℝ :=
  ⟨t.shape,
    ((chunksOf (t.shape.getLastD 1) t.data).map softmaxRow).flatten⟩

/-- `safe_softmax` from `safe_wrappers.py`: if `tf.shape(inputs)[0] > 0`
return `tf.nn.softmax(inputs)`, else return `tf.constant([], dtype)`,
the rank-1 empty tensor. -/
noncomputable def safe_softmax (inputs : Tensor ℝ) : Tensor ℝ :=
  if 0 < inputs.shape.headD 0 then tfSoftmax inputs else ⟨[0], []⟩

/-! ### Helper lemmas -/

/-- The per-element Huber loss depends only on `|d|`, so it is even. -/
theorem smoothL1elem_neg (sigma d : ℝ) :
    smoothL1elem sigma (-d) = smoothL1elem sigma d := by
  unfold smoothL1elem
  rw [abs_neg]

/-- The per-element Huber loss is non-negative for non-zero sigma. -/
theorem smoothL1elem_nonneg (sigma : ℝ) (h : sigma ≠ 0) (d : ℝ) :
    0 ≤ smoothL1elem sigma d := by
  have hs2 : 0 < sigma ^ 2 := by positivity
  simp only [smoothL1elem]
  split
  · positivity
  · next hlt =>
    push_neg at hlt
    have h1 : 1 / 2 / sigma ^ 2 < 1 / sigma ^ 2 := by
      rw [div_div]
      apply div_lt_div_of_pos_left one_pos hs2
      linarith
    have h2 : 0 ≤ |d| := abs_nonneg d
    linarith

/-- `getD _ 0` of a list of non-negative reals is non-negative. -/
theorem getD_zero_nonneg {l : List ℝ} (h : ∀ y ∈ l, 0 ≤ y) (k : ℕ) :
    0 ≤ l.getD k 0 := by
  induction l generalizing k with
  | nil => simp [List.getD]
  | cons a tl ih =>
    cases k with
    | zero => simpa using h a (by simp)
    | succ k =>
      simp only [List.getD_cons_succ]
      exact ih (fun y hy => h y (by simp [hy])) k

/-- Every element of `zipWith f` is non-negative when `f` always is. -/
theorem mem_zipWith_nonneg {f : ℝ → ℝ → ℝ} (hf : ∀ a b, 0 ≤ f a b)
    (as bs : List ℝ) : ∀ y ∈ List.zipWith f as bs, 0 ≤ y := by
  induction as generalizing bs with
  | nil => simp
  | cons a tl ih =>
    cases bs with
    | nil => simp
    | cons b bs =>
      intro y hy
      rcases (List.mem_cons).1 hy with h | h
      · exact h ▸ hf a b
      · exact ih bs y h

/-- Indexing a `map` over `range` below the bound. -/
theorem getD_map_range (f : ℕ → ℝ) {i c : ℕ} (h : i < c) :
    ((List.range c).map f).getD i 0 = f i := by
  rw [List.getD_eq_getElem?_getD, List.getElem?_map, List.getElem?_range h]
  rfl

/-! ### Claims about `smooth_l1_loss` -/

/-- C2: for non-zero sigma and any same-position elements `a`, `b` with
`d = a - b`, the per-element contribution of `smooth_l1_loss` is
`0.5·σ²·d²` when `|d| < 1/σ²` and `|d| − 0.5/σ²` otherwise. -/
theorem smoothL1elem_spec (sigma : ℝ) (h : sigma ≠ 0) (a b : ℝ) :
    smoothL1elem sigma (a - b) =
      if |a - b| < 1 / sigma ^ 2 then
        1 / 2 * sigma ^ 2 * (a - b) ^ 2
      else
        |a - b| - 1 / 2 / sigma ^ 2 := by
  simp only [smoothL1elem]
  split
  · rw [sq_abs]
  · rfl

/-- C2 witness: instantiation at `sigma = 1`, `a = 3`, `b = 1`. -/
theorem smoothL1elem_spec_witness :
    smoothL1elem 1 (3 - 1) =
      if |(3:ℝ) - 1| < 1 / 1 ^ 2 then
        1 / 2 * 1 ^ 2 * ((3:ℝ) - 1) ^ 2
      else
        |(3:ℝ) - 1| - 1 / 2 / 1 ^ 2 :=
  smoothL1elem_spec 1 (by norm_num) 3 1

/-- C7: `smooth_l1_loss` is symmetric in prediction and target for
equal-shape tensors and non-zero sigma. -/
theorem smooth_l1_loss_comm (x y : Tensor ℝ) (sigma : ℝ)
    (hshape : x.shape = y.shape) (hsigma : sigma ≠ 0) :
    smooth_l1_loss x y sigma = smooth_l1_loss y x sigma := by
  unfold smooth_l1_loss
  rw [hshape, List.zipWith_comm_of_comm]
  intro a b
  rw [← smoothL1elem_neg sigma (a - b), neg_sub]

/-- C7 witness: concrete equal-shape tensors, sigma = 1. -/
theorem smooth_l1_loss_comm_witness :
    smooth_l1_loss ⟨[1, 2], [3, 5]⟩ ⟨[1, 2], [1, 1]⟩ 1 =
      smooth_l1_loss ⟨[1, 2], [1, 1]⟩ ⟨[1, 2], [3, 5]⟩ 1 :=
  smooth_l1_loss_comm ⟨[1, 2], [3, 5]⟩ ⟨[1, 2], [1, 1]⟩ 1 rfl one_ne_zero

/-- C8: at the transition point `|d| = 1/σ²` the two branch formulas of
the per-element loss agree, both equal `0.5/σ²`, and the per-element
loss takes that common value. -/
theorem smoothL1elem_boundary (sigma d : ℝ) (h : sigma ≠ 0)
    (hd : |d| = 1 / sigma ^ 2) :
    1 / 2 * sigma ^ 2 * d ^ 2 = |d| - 1 / 2 / sigma ^ 2 ∧
    1 / 2 * sigma ^ 2 * d ^ 2 = 1 / 2 / sigma ^ 2 ∧
    smoothL1elem sigma d = 1 / 2 / sigma ^ 2 := by
  have hs2 : sigma ^ 2 ≠ 0 := pow_ne_zero 2 h
  have hd2 : d ^ 2 = (1 / sigma ^ 2) ^ 2 := by rw [← sq_abs, hd]
  have hb1 : 1 / 2 * sigma ^ 2 * d ^ 2 = 1 / 2 / sigma ^ 2 := by
    rw [hd2]
    field_simp
    ring
  refine ⟨?_, hb1, ?_⟩
  · rw [hb1, hd]
    ring
  · simp only [smoothL1elem]
    rw [if_neg (by rw [hd]; exact lt_irrefl _)]
    rw [hd]
    ring

/-- C8 witness: `sigma = 1`, `d = 1`. -/
theorem smoothL1elem_boundary_witness :
    1 / 2 * (1:ℝ) ^ 2 * 1 ^ 2 = |(1:ℝ)| - 1 / 2 / 1 ^ 2 ∧
    1 / 2 * (1:ℝ) ^ 2 * 1 ^ 2 = 1 / 2 / 1 ^ 2 ∧
    smoothL1elem 1 1 = 1 / 2 / 1 ^ 2 :=
  smoothL1elem_boundary 1 1 one_ne_zero (by norm_num)

/-- C9: for any non-zero sigma, every component of the `smooth_l1_loss`
output is non-negative (equivalently, reading any data position with
default 0 gives a non-negative value). -/
theorem smooth_l1_loss_nonneg (p t : Tensor ℝ) (sigma : ℝ)
    (h : sigma ≠ 0) :
    (∀ x ∈ (smooth_l1_loss p t sigma).data, 0 ≤ x) ∧
    ∀ k : ℕ, 0 ≤ (smooth_l1_loss p t sigma).data.getD k 0 := by
  have hmem : ∀ x ∈ (smooth_l1_loss p t sigma).data, 0 ≤ x := ?_
  · exact ⟨hmem, fun k => getD_zero_nonneg hmem k⟩
  obtain ⟨ps, pd⟩ := p
  intro x hx
  unfold smooth_l1_loss reduceSumAxis1 at hx
  rcases ps with _ | ⟨d0, ps⟩
  · simp at hx
  rcases ps with _ | ⟨d1, rest⟩
  · simp at hx
  simp only [List.mem_map, List.mem_range] at hx
  obtain ⟨k, -, rfl⟩ := hx
  apply List.sum_nonneg
  intro y hy
  simp only [List.mem_map, List.mem_range] at hy
  obtain ⟨i1, -, rfl⟩ := hy
  exact getD_zero_nonneg
    (mem_zipWith_nonneg (fun a b => smoothL1elem_nonneg sigma h (a - b)) _ _) _

/-- C9 witness: concrete tensors, sigma = 1, first data position. -/
theorem smooth_l1_loss_nonneg_witness :
    0 ≤ (smooth_l1_loss ⟨[1, 1], [5]⟩ ⟨[1, 1], [2]⟩ 1).data.getD 0 0 :=
  (smooth_l1_loss_nonneg ⟨[1, 1], [5]⟩ ⟨[1, 1], [2]⟩ 1 one_ne_zero).2 0

/-- C1 counterexample: on rank-3 inputs of shape `[1, 2, 3]`,
`smooth_l1_loss` (which reduces over axis 1) differs from the
spec-modelled last-axis reduction: the shapes of the two results are
`[1, 3]` and `[1, 2]`. -/
theorem smooth_l1_loss_axis_counterexample :
    smooth_l1_loss ⟨[1, 2, 3], [0, 0, 0, 0, 0, 0]⟩
        ⟨[1, 2, 3], [0, 0, 0, 0, 0, 0]⟩ 1 ≠
      smooth_l1_loss_lastAxis ⟨[1, 2, 3], [0, 0, 0, 0, 0, 0]⟩
        ⟨[1, 2, 3], [0, 0, 0, 0, 0, 0]⟩ 1 := by
  intro h
  have hs := congrArg Tensor.shape h
  simp [smooth_l1_loss, smooth_l1_loss_lastAxis, reduceSumAxis1,
    reduceSumLastAxis] at hs

/-- C1 amended: `smooth_l1_loss` reduces along axis 1, which for rank-2
inputs of shape `[n, m]` is the innermost axis: the result has shape
`[n]`, one scalar per row, each the sum of the per-element losses of
that row. -/
theorem smooth_l1_loss_rank2_rows (p t : Tensor ℝ) (sigma : ℝ)
    (n m : ℕ) (hp : p.shape = [n, m]) (ht : t.shape = [n, m])
    (hpd : p.data.length = n * m) (htd : t.data.length = n * m) :
    (smooth_l1_loss p t sigma).shape = [n] ∧
    ∀ i < n, (smooth_l1_loss p t sigma).data.getD i 0 =
      ((List.range m).map fun j =>
        smoothL1elem sigma
          (p.data.getD (i * m + j) 0 - t.data.getD (i * m + j) 0)).sum := by
  obtain ⟨ps, pd⟩ := p
  obtain ⟨ts, td⟩ := t
  simp only at hp ht hpd htd
  subst hp ht
  constructor
  · simp [smooth_l1_loss, reduceSumAxis1]
  · intro i hi
    have hi' : i < n * 1 := by omega
    simp only [smooth_l1_loss, reduceSumAxis1, List.prod_nil]
    rw [getD_map_range _ hi']
    simp only [Nat.div_one, Nat.mod_one, Nat.mul_one, Nat.add_zero]
    congr 1
    apply List.map_congr_left
    intro j hj
    rw [List.mem_range] at hj
    have hidx : i * m + j < n * m := by
      have h1 : i * m + j < (i + 1) * m := by rw [add_one_mul]; omega
      have h2 : (i + 1) * m ≤ n * m := Nat.mul_le_mul_right m (by omega)
      omega
    rw [List.getD_eq_getElem _ _ (by simp [List.length_zipWith]; omega)]
    rw [List.getD_eq_getElem _ _ (by omega),
      List.getD_eq_getElem _ _ (by omega)]
    rw [List.getElem_zipWith]

/-- C1 amended witness: a concrete `1 × 2` example, row 0. -/
theorem smooth_l1_loss_rank2_rows_witness :
    (smooth_l1_loss ⟨[1, 2], [1, 2]⟩ ⟨[1, 2], [0, 0]⟩ 1).shape = [1] ∧
    (smooth_l1_loss ⟨[1, 2], [1, 2]⟩ ⟨[1, 2], [0, 0]⟩ 1).data.getD 0 0 =
      ((List.range 2).map fun j =>
        smoothL1elem 1
          (([1, 2] : List ℝ).getD (0 * 2 + j) 0 -
            ([0, 0] : List ℝ).getD (0 * 2 + j) 0)).sum :=
  ⟨(smooth_l1_loss_rank2_rows ⟨[1, 2], [1, 2]⟩ ⟨[1, 2], [0, 0]⟩ 1 1 2
      rfl rfl rfl rfl).1,
    (smooth_l1_loss_rank2_rows ⟨[1, 2], [1, 2]⟩ ⟨[1, 2], [0, 0]⟩ 1 1 2
      rfl rfl rfl rfl).2 0 (by norm_num)⟩

/-! ### Claims about `focal_loss` -/

/-- The per-example value computed by `focal_loss`: focal factor times
(cross-entropy times the class weight). -/
noncomputable def focalExample (num_classes : ℕ)
    (gamma weights background_divider : ℝ)
    (score prob : List ℝ) (tgt : ℕ) : ℝ :=
  (1 - reduceMaxRow (List.zipWith (· * ·) prob (oneHot tgt (num_classes + 1)))) ^ gamma *
    (softmaxCE (oneHot tgt (num_classes + 1)) score *
      (if tgt = 0 then weights / background_divider else weights))

/-- `focal_loss` on cons cells peels one example. -/
theorem focal_loss_cons (sh ph : List ℝ) (st pt : List (List ℝ))
    (th : ℕ) (tt : List ℕ) (num_classes : ℕ)
    (gamma weights background_divider : ℝ) :
    focal_loss (sh :: st) (ph :: pt) (th :: tt) num_classes
        gamma weights background_divider =
      focalExample num_classes gamma weights background_divider sh ph th ::
        focal_loss st pt tt num_classes gamma weights background_divider := by
  simp only [focal_loss, focalExample, List.map_cons, List.zipWith_cons_cons]

/-- `focal_loss` is empty when the target list is empty. -/
theorem focal_loss_nil_targets (s p : List (List ℝ)) (num_classes : ℕ)
    (gamma weights background_divider : ℝ) :
    focal_loss s p [] num_classes gamma weights background_divider = [] := by
  simp [focal_loss]

/-- C4: for inputs of batch size `N`, `focal_loss` returns exactly `N`
per-example losses, and the empty list when `N = 0`. -/
theorem focal_loss_length (cls_score cls_prob : List (List ℝ))
    (targets : List ℕ) (num_classes : ℕ)
    (gamma weights background_divider : ℝ) (N : ℕ)
    (h1 : cls_score.length = N) (h2 : cls_prob.length = N)
    (h3 : targets.length = N) :
    (focal_loss cls_score cls_prob targets num_classes
        gamma weights background_divider).length = N ∧
      (N = 0 → focal_loss cls_score cls_prob targets num_classes
        gamma weights background_divider = []) := by
  have hl : (focal_loss cls_score cls_prob targets num_classes
      gamma weights background_divider).length = N := by
    simp [focal_loss, List.length_zipWith, h1, h2, h3]
  exact ⟨hl, fun h0 => List.length_eq_zero.mp (by rw [hl, h0])⟩

/-- C4 witness: a concrete batch of size 1, and the empty batch. -/
theorem focal_loss_length_witness :
    (focal_loss [[1, 2]] [[1, 0]] [1] 1 2 1 1).length = 1 ∧
      focal_loss [] [] [] 1 2 1 1 = [] :=
  ⟨(focal_loss_length [[1, 2]] [[1, 0]] [1] 1 2 1 1 1 rfl rfl rfl).1,
    (focal_loss_length [] [] [] 1 2 1 1 0 rfl rfl rfl).2 rfl⟩

/-- C5: with `gamma = 0`, `weights = 1`, `background_divider = 1`,
`focal_loss` is exactly the plain softmax cross-entropy of each
example. -/
theorem focal_loss_gamma_zero (cls_score cls_prob : List (List ℝ))
    (targets : List ℕ) (num_classes : ℕ)
    (h1 : cls_score.length = targets.length)
    (h2 : cls_prob.length = targets.length) :
    focal_loss cls_score cls_prob targets num_classes 0 1 1 =
      plainCrossEntropy cls_score targets num_classes := by
  induction targets generalizing cls_score cls_prob with
  | nil => simp [focal_loss_nil_targets, plainCrossEntropy]
  | cons th tt ih =>
    cases cls_score with
    | nil => simp at h1
    | cons sh st =>
      cases cls_prob with
      | nil => simp at h2
      | cons ph pt =>
        rw [focal_loss_cons]
        simp only [plainCrossEntropy, List.zipWith_cons_cons]
        refine congrArg₂ List.cons ?_ ?_
        · simp only [focalExample, Real.rpow_zero, one_mul, div_one,
            ite_self, mul_one]
        · exact ih st pt (by simpa using h1) (by simpa using h2)

/-- C5 witness: a concrete batch of size 1. -/
theorem focal_loss_gamma_zero_witness :
    focal_loss [[1, 2]] [[1, 0]] [1] 1 0 1 1 =
      plainCrossEntropy [[1, 2]] [1] 1 :=
  focal_loss_gamma_zero [[1, 2]] [[1, 0]] [1] 1 rfl rfl

/-- C6: the cross-entropy of an example with target class 0 is scaled
by `weights / background_divider`, any other example by `weights`. -/
theorem focal_loss_background_weight (cls_score cls_prob : List (List ℝ))
    (targets : List ℕ) (num_classes : ℕ)
    (gamma weights background_divider : ℝ) (i : ℕ)
    (h1 : cls_score.length = targets.length)
    (h2 : cls_prob.length = targets.length)
    (hi : i < targets.length) :
    (focal_loss cls_score cls_prob targets num_classes
        gamma weights background_divider).getD i 0 =
      (1 - reduceMaxRow (List.zipWith (· * ·) (cls_prob.getD i [])
          (oneHot (targets.getD i 0) (num_classes + 1)))) ^ gamma *
        (softmaxCE (oneHot (targets.getD i 0) (num_classes + 1))
            (cls_score.getD i []) *
          (if targets.getD i 0 = 0 then weights / background_divider
            else weights)) := by
  induction targets generalizing cls_score cls_prob i with
  | nil => simp at hi
  | cons th tt ih =>
    cases cls_score with
    | nil => simp at h1
    | cons sh st =>
      cases cls_prob with
      | nil => simp at h2
      | cons ph pt =>
        rw [focal_loss_cons]
        cases i with
        | zero => simp [focalExample]
        | succ i =>
          simp only [List.getD_cons_succ]
          exact ih st pt i (by simpa using h1) (by simpa using h2)
            (by simpa using hi)

/-- C6 witness: a batch of two examples, targets 0 and 1. -/
theorem focal_loss_background_weight_witness :
    (focal_loss [[1, 2], [3, 4]] [[1, 0], [0, 1]] [0, 1] 1 2 5 7).getD 0 0 =
      (1 - reduceMaxRow (List.zipWith (· * ·)
          (([[1, 0], [0, 1]] : List (List ℝ)).getD 0 [])
          (oneHot (([0, 1] : List ℕ).getD 0 0) (1 + 1)))) ^ (2:ℝ) *
        (softmaxCE (oneHot (([0, 1] : List ℕ).getD 0 0) (1 + 1))
            (([[1, 2], [3, 4]] : List (List ℝ)).getD 0 []) *
          (if ([0, 1] : List ℕ).getD 0 0 = 0 then (5:ℝ) / 7 else 5)) :=
  focal_loss_background_weight [[1, 2], [3, 4]] [[1, 0], [0, 1]] [0, 1]
    1 2 5 7 0 rfl rfl (by decide)

/-! ### Claims about `safe_softmax` -/

/-- Summing a list divided pointwise by a constant. -/
theorem sum_map_div (l : List ℝ) (c : ℝ) :
    (l.map fun x => x / c).sum = l.sum / c := by
  induction l with
  | nil => simp
  | cons a tl ih => simp [ih, add_div]

/-- The sum of exponentials of a nonempty list is positive. -/
theorem sum_map_exp_pos (l : List ℝ) (h : l ≠ []) :
    0 < (l.map Real.exp).sum := by
  cases l with
  | nil => exact absurd rfl h
  | cons a tl =>
    simp only [List.map_cons, List.sum_cons]
    have h1 : 0 ≤ (tl.map Real.exp).sum :=
      List.sum_nonneg fun x hx => by
        obtain ⟨y, -, rfl⟩ := List.mem_map.1 hx
        exact (Real.exp_pos y).le
    have h2 : 0 < Real.exp a := Real.exp_pos a
    linarith

/-- A nonempty softmax row sums to 1. -/
theorem softmaxRow_sum (l : List ℝ) (h : l ≠ []) :
    (softmaxRow l).sum = 1 := by
  unfold softmaxRow
  have hmap : (l.map fun x => Real.exp x / (l.map Real.exp).sum) =
      (l.map Real.exp).map fun y => y / (l.map Real.exp).sum := by
    rw [List.map_map]
    rfl
  rw [hmap, sum_map_div]
  exact div_self (ne_of_gt (sum_map_exp_pos l h))

/-- C3: `safe_softmax` on an input whose leading dimension is 0 returns
the empty tensor without normalizing; on an input with at least one row
it is `tf.nn.softmax`, and every nonempty input row is mapped to a
`softmaxRow` that sums to 1. -/
theorem safe_softmax_spec (inputs : Tensor ℝ) :
    (inputs.shape.headD 0 = 0 → safe_softmax inputs = ⟨[0], []⟩) ∧
    (0 < inputs.shape.headD 0 →
      safe_softmax inputs = tfSoftmax inputs ∧
      ∀ row ∈ chunksOf (inputs.shape.getLastD 1) inputs.data,
        row ≠ [] → (softmaxRow row).sum = 1) := by
  refine ⟨fun h => ?_, fun h => ⟨?_, fun row _ hne => softmaxRow_sum row hne⟩⟩
  · rw [safe_softmax, if_neg]
    rw [h]
    exact lt_irrefl 0
  · rw [safe_softmax, if_pos h]

/-- C3 witness: the empty branch at shape `[0, 2]` and the softmax
branch at shape `[1, 2]`. -/
theorem safe_softmax_spec_witness :
    safe_softmax ⟨[0, 2], []⟩ = ⟨[0], []⟩ ∧
    safe_softmax ⟨[1, 2], [1, 2]⟩ = tfSoftmax ⟨[1, 2], [1, 2]⟩ :=
  ⟨(safe_softmax_spec ⟨[0, 2], []⟩).1 rfl,
    ((safe_softmax_spec ⟨[1, 2], [1, 2]⟩).2 (by norm_num)).1⟩

/-- C10: on the zero-leading-dimension path `safe_softmax` returns the
rank-1 empty tensor `⟨[0], []⟩` whatever the input rank; in particular
for an input of shape `[0, C]` the result shape is `[0]`, not
`[0, C]`. -/
theorem safe_softmax_empty_rank_one (inputs : Tensor ℝ)
    (h : inputs.shape.headD 0 = 0) :
    safe_softmax inputs = ⟨[0], []⟩ ∧
    ∀ C : ℕ, inputs.shape = [0, C] →
      (safe_softmax inputs).shape = [0] ∧
      (safe_softmax inputs).shape ≠ inputs.shape := by
  have he : safe_softmax inputs = ⟨[0], []⟩ := by
    rw [safe_softmax, if_neg]
    rw [h]
    exact lt_irrefl 0
  refine ⟨he, fun C hC => ⟨by rw [he], ?_⟩⟩
  rw [he, hC]
  simp

/-- C10 witness: a rank-2 input of shape `[0, 3]`. -/
theorem safe_softmax_empty_rank_one_witness :
    safe_softmax ⟨[0, 3], []⟩ = ⟨[0], []⟩ ∧
    (safe_softmax ⟨[0, 3], []⟩).shape = [0] ∧
    (safe_softmax ⟨[0, 3], []⟩).shape ≠ (⟨[0, 3], []⟩ : Tensor ℝ).shape :=
  ⟨(safe_softmax_empty_rank_one ⟨[0, 3], []⟩ rfl).1,
    (safe_softmax_empty_rank_one ⟨[0, 3], []⟩ rfl).2 3 rfl⟩

end Luminoth
